import Mathlib

/-!
# Verification of the RNN male-name generator notebook

Shallow embedding of the algorithmic core of `src/main-name-generator.ipynb`:
the alphabet codec (character/integer mappings, one-hot encoding and
decoding), the target-sequence derivation, the padding step, and the two
autoregressive generation loops (stochastic and greedy).

Modelling conventions:
* Python strings are modelled as `List Char`; numpy integer arrays as
  `List Nat` (or `List Int` where negative indices are meaningful); 2-d
  arrays as `List (List Nat)`.
* Python `float` probability vectors are modelled as `List ℚ`; only their
  ordering matters for the claims below, never rounding.
* A Python exception (`KeyError`, `IndexError`, broadcasting failure) is
  modelled as `Option.none`.
-/

namespace NameGen

/-- The standard latin alphabet: `[chr(i) for i in range(97, 123)]`. -/
def standard_chars : List Char := (List.range 26).map (fun i => Char.ofNat (97 + i))

/-- `special_chars`: the diacritics used in Spain, the apostrophe
(`Char.ofNat 39`), the END dot, and the space (`Char.ofNat 32`). -/
def special_chars : List Char :=
  ['à', 'á', 'è', 'é', 'í', 'ò', 'ó', 'ú', 'ñ', 'ç', Char.ofNat 39, '.', Char.ofNat 32]

/-- `chars = standard_chars + special_chars`. -/
def chars : List Char := standard_chars ++ special_chars

/-- `n = len(map_char_to_int)`, the vocabulary size (39 in the source). -/
def n_alpha : Nat := chars.length

/-- `map_char_to_int`: the dict `zip(chars, seq)`; a missing key raises
`KeyError`, modelled by `none`.  The value of a present key is the position
of the character in `chars` (all 39 characters are distinct). -/
def map_char_to_int (c : Char) : Option Nat := chars.findIdx? (fun x => x == c)

/-- `map_int_to_char`: the dict `zip(seq, chars)`; keys are `0..38`. -/
def map_int_to_char (i : Nat) : Option Char := chars.get? i

/-- numpy indexing `a[pos]` on an axis of size `width`: a nonnegative index
must be `< width`; a negative index wraps to `width + pos` provided
`-width ≤ pos`; anything else raises `IndexError` (`none`). -/
def npIndex (width : Nat) (pos : Int) : Option Nat :=
  if 0 ≤ pos then
    (if pos < (width : Int) then some pos.toNat else none)
  else
    (if -(width : Int) ≤ pos then some ((width : Int) + pos).toNat else none)

/-- One row of `one_hot_encoding`: `word_encoded = np.zeros(features)` then
`word_encoded[pos] = 1`, with numpy's index semantics (`npIndex`). -/
def one_hot_row (features : Nat) (pos : Int) : Option (List Nat) :=
  (npIndex features pos).map (fun p => (List.replicate features 0).set p 1)

/-- `one_hot_encoding(word_int, features)`: the loop setting
`word_encoded[i, word_int[i]] = 1` row by row; the first failing row
aborts the whole construction (numpy raises). -/
def one_hot_encoding (word_int : List Int) (features : Nat) : Option (List (List Nat)) :=
  word_int.mapM (one_hot_row features)

/-- Inner loop of `np.argmax` over a 1-d array: scan the remaining values
`l`, where `idx` is the array position of `l`'s head, `best` the position of
the running maximum and `bv` its value.  numpy replaces the running maximum
only on a strict increase, so the first maximum wins ties. -/
def argmaxAux {α : Type} [LinearOrder α] : List α → Nat → Nat → α → Nat
  | [], _, best, _ => best
  | v :: vs, idx, best, bv =>
    if bv < v then argmaxAux vs (idx + 1) idx v
    else argmaxAux vs (idx + 1) best bv

/-- `np.argmax` of a 1-d array (the source never applies it to an empty
row; we return 0 there). -/
def np_argmax {α : Type} [LinearOrder α] : List α → Nat
  | [] => 0
  | v :: vs => argmaxAux vs 1 0 v

/-- `one_hot_decoding(word_encoded)`: `np.argmax` of every row. -/
def one_hot_decoding (word_encoded : List (List Nat)) : List Nat :=
  word_encoded.map np_argmax

/-- `encode_word_to_int(word, map_char_to_int)`: pointwise dict lookup;
a character outside the alphabet raises `KeyError` (`none`). -/
def encode_word_to_int (word : List Char) : Option (List Nat) :=
  word.mapM map_char_to_int

/-- `decode_int_to_word(word_int, map_int_to_char)`: pointwise lookup,
appending the placeholder string `'UNK'` for an index that is not a key of
the mapping.  The source accumulates `word += piece` left to right; the
result is the in-order concatenation of the pieces, written here by
recursion on the list. -/
def decode_int_to_word : List Nat → List Char
  | [] => []
  | i :: rest =>
    (match map_int_to_char i with
     | some c => [c]
     | none => ['U', 'N', 'K']) ++ decode_int_to_word rest

/-- The integer index of the END dot: `map_char_to_int['.']` (37). -/
def dot_int : Nat := (map_char_to_int '.').getD 0

/-- `y_male`: the string view of a target, `name[1:] + '.'`. -/
def y_male (name : List Char) : List Char := name.drop 1 ++ ['.']

/-- `y_male_int` as the source computes it:
`word_int[1:] + [map_char_to_int['.']]` where `word_int` is a **numpy
array**, so `+` is elementwise broadcast addition of 37, not appending.
(For a length-1 name the shapes `(0,)` and `(1,)` broadcast to `(0,)`.) -/
def y_male_int_src (word_int : List Nat) : List Nat :=
  (word_int.drop 1).map (fun v => v + dot_int)

/-- The target integer sequence the notebook's own narration describes:
shift one position and append the mapping of the dot. -/
def target_int_intended (word_int : List Nat) : List Nat :=
  word_int.drop 1 ++ [dot_int]

/-- `dot_encoded = one_hot_encoding([map_char_to_int['.']], n)`. -/
def dot_encoded : Option (List (List Nat)) :=
  one_hot_encoding [(dot_int : Int)] n_alpha

/-- `y_male_encoded`: `np.concatenate((l[1:], dot_encoded), axis=0)`. -/
def y_male_encoded (word_encoded : List (List Nat)) : List (List Nat) :=
  word_encoded.drop 1 ++ (dot_encoded.getD [])

/-- `timesteps = len(max(male_names_data, key=len))`: the maximum name
length over the corpus. -/
def timesteps (corpus : List (List Char)) : Nat :=
  (corpus.map List.length).foldl max 0

/-- `tf.keras.preprocessing.sequence.pad_sequences(_, maxlen, padding =
'post', truncating = 'post', value = 0)` on a single sample: keep the first
`maxlen` rows and append all-zero rows of width `width` up to `maxlen`. -/
def pad_post (e : List (List Nat)) (maxlen width : Nat) : List (List Nat) :=
  e.take maxlen ++ List.replicate (maxlen - e.length) (List.replicate width 0)

/-- `pad_sequences` on the whole batch (`X_male_padded` / `y_male_padded`). -/
def pad_sequences_post (batch : List (List (List Nat))) (maxlen width : Nat) :
    List (List (List Nat)) :=
  batch.map (fun e => pad_post e maxlen width)

/-! ## Generation

Both generation cells share one loop shape.  The trained network is
abstracted as `model : List (List Nat) → List ℚ`, mapping the whole input
sequence accumulated so far (`x`, a list of one-hot / zero rows) to the
last timestep's output distribution `y[0, -1, :]`.  The selection of the
next index is abstracted as `pick : Nat → List ℚ → Nat`, receiving the
current length of `x` (the timestep) and the distribution: `np.argmax` for
the greedy cell, the external random source for the stochastic cell.  The
loop body appends the decoded character to `word` *before* testing
`c != '.'`, and feeds the chosen index's one-hot row back into `x`.  The
source's `while` loop is unbounded; `fuel` counts loop iterations, and
`none` means the run has neither finished nor failed within `fuel`
iterations (or that a lookup raised). -/

/-- The shared generation loop of the two text-generation cells,
parameterised by the vocabulary size `n` (the notebook's global `n`,
instantiated at `n_alpha` in `gen_greedy` / `gen_stochastic`). -/
def genLoop (n : Nat) (model : List (List Nat) → List ℚ) (pick : Nat → List ℚ → Nat) :
    Nat → List (List Nat) → List Char → Option (List Char)
  | 0, _, _ => none
  | fuel + 1, x, word =>
    match one_hot_encoding [(pick x.length (model x) : Int)] n,
        map_int_to_char (pick x.length (model x)) with
    | some rows, some c =>
      if c = '.' then some (word ++ [c])
      else genLoop n model pick fuel (x ++ rows) (word ++ [c])
    | _, _ => none
termination_by structural fuel => fuel

/-- `x = np.zeros((1, 1, n))`: the initial input, one all-zero timestep. -/
def x0 : List (List Nat) := [List.replicate n_alpha 0]

/-- The greedy selection `np.argmax(y_n)`. -/
def greedy_pick : Nat → List ℚ → Nat := fun _ y_n => np_argmax y_n

/-- The greedy generation cell, run for at most `fuel` iterations from
input history `x` and already-produced text `word`. -/
def gen_greedy (model : List (List Nat) → List ℚ) (fuel : Nat)
    (x : List (List Nat)) (word : List Char) : Option (List Char) :=
  genLoop n_alpha model greedy_pick fuel x word

/-- The stochastic generation cell: `np.random.choice(range(n), p = y_n)`
is the external random source `rand`, consuming the timestep and the
distribution. -/
def gen_stochastic (model : List (List Nat) → List ℚ) (rand : Nat → List ℚ → Nat)
    (fuel : Nat) (x : List (List Nat)) (word : List Char) : Option (List Char) :=
  genLoop n_alpha model rand fuel x word

/-- A run of the loop that never ends: at every fuel bound it has neither
selected END nor stopped. -/
def neverTerminates (model : List (List Nat) → List ℚ)
    (pick : Nat → List ℚ → Nat) : Prop :=
  ∀ fuel x word, genLoop n_alpha model pick fuel x word = none

/-- A model whose output distribution always puts all mass on index 0
(the letter `a`), so END is never selected. -/
def modelAlwaysA : List (List Nat) → List ℚ :=
  fun _ => (List.replicate n_alpha (0 : ℚ)).set 0 1

/-- A model whose output distribution always puts all mass on the END
index 37, so the first selected symbol is the dot. -/
def modelAlwaysDot : List (List Nat) → List ℚ :=
  fun _ => (List.replicate n_alpha (0 : ℚ)).set dot_int 1

/-! ## Helper lemmas about `np_argmax` -/

/-- If no remaining value strictly exceeds the running maximum, the scan
returns the running best index. -/
lemma argmaxAux_of_le {α : Type} [LinearOrder α] :
    ∀ (l : List α) (idx best : Nat) (bv : α), (∀ v ∈ l, v ≤ bv) →
      argmaxAux l idx best bv = best := by
  intro l
  induction l with
  | nil => intro idx best bv _; rfl
  | cons a t ih =>
    intro idx best bv h
    simp only [argmaxAux]
    rw [if_neg (not_lt.mpr (h a (List.mem_cons_self a t)))]
    exact ih (idx + 1) best bv (fun v hv => h v (List.mem_cons_of_mem a hv))

/-- Scanning `z…z o z…z` with running value `z < o` lands on `o`. -/
lemma argmaxAux_replicate {α : Type} [LinearOrder α] (z o : α) (hzo : z < o) :
    ∀ (j r idx best : Nat),
      argmaxAux (List.replicate j z ++ o :: List.replicate r z) idx best z = idx + j := by
  intro j
  induction j with
  | zero =>
    intro r idx best
    simp only [List.replicate, List.nil_append, argmaxAux, if_pos hzo]
    rw [argmaxAux_of_le _ _ _ _ (fun v hv => ?_), Nat.add_zero]
    rw [List.eq_of_mem_replicate hv]
    exact hzo.le
  | succ m ih =>
    intro r idx best
    rw [List.replicate_succ, List.cons_append]
    simp only [argmaxAux, if_neg (lt_irrefl z)]
    rw [ih r (idx + 1) best]
    omega

/-- Setting position `k < V` in a constant list splits it around `k`. -/
lemma replicate_set {α : Type} (z o : α) :
    ∀ (V k : Nat), k < V →
      (List.replicate V z).set k o =
        List.replicate k z ++ o :: List.replicate (V - k - 1) z := by
  intro V
  induction V with
  | zero => intro k hk; exact absurd hk (Nat.not_lt_zero k)
  | succ m ih =>
    intro k hk
    cases k with
    | zero => simp [List.replicate_succ]
    | succ j =>
      rw [List.replicate_succ, List.set_cons_succ, ih j (Nat.lt_of_succ_lt_succ hk)]
      simp [List.replicate_succ]

/-- `np.argmax` of a one-hot-shaped list (constant `z` except one `o > z`
at position `k`) is `k`. -/
lemma np_argmax_replicate_set {α : Type} [LinearOrder α] (z o : α) (hzo : z < o)
    (V k : Nat) (hk : k < V) :
    np_argmax ((List.replicate V z).set k o) = k := by
  rw [replicate_set z o V k hk]
  cases k with
  | zero =>
    simp only [List.replicate, List.nil_append, np_argmax]
    refine argmaxAux_of_le _ _ _ _ (fun v hv => ?_)
    rw [List.eq_of_mem_replicate hv]
    exact hzo.le
  | succ m =>
    rw [List.replicate_succ, List.cons_append]
    simp only [np_argmax]
    rw [argmaxAux_replicate z o hzo m _ 1 0]
    omega

/-- Full characterisation of the scan: either nothing beats the running
maximum and the running best is returned, or the result is the position
(relative to `idx`) of the first maximum of the remaining values, which
also strictly exceeds the running value `bv`. -/
lemma argmaxAux_spec :
    ∀ (l : List Nat) (idx best bv : Nat),
      (argmaxAux l idx best bv = best ∧ ∀ v ∈ l, v ≤ bv) ∨
      (∃ j, j < l.length ∧ argmaxAux l idx best bv = idx + j ∧ bv < l.getD j 0 ∧
        (∀ i < j, l.getD i 0 < l.getD j 0) ∧ (∀ v ∈ l, v ≤ l.getD j 0)) := by
  intro l
  induction l with
  | nil => intro idx best bv; exact Or.inl ⟨rfl, by simp⟩
  | cons a t ih =>
    intro idx best bv
    by_cases hba : bv < a
    · simp only [argmaxAux, if_pos hba]
      rcases ih (idx + 1) idx a with ⟨heq, hle⟩ | ⟨j, hj, heq, hbv, hfirst, hmax⟩
      · refine Or.inr ⟨0, by simp, by simpa using heq, by simpa using hba, ?_, ?_⟩
        · intro i hi; exact absurd hi (Nat.not_lt_zero i)
        · intro v hv
          rcases List.mem_cons.mp hv with rfl | hv
          · simp
          · simpa using hle v hv
      · refine Or.inr ⟨j + 1, by simpa using Nat.succ_lt_succ hj, by omega, ?_, ?_, ?_⟩
        · simpa [List.getD_cons_succ] using lt_trans hba hbv
        · intro i hi
          cases i with
          | zero => simpa [List.getD_cons_succ] using hbv
          | succ i' =>
            simpa [List.getD_cons_succ] using hfirst i' (Nat.lt_of_succ_lt_succ hi)
        · intro v hv
          rcases List.mem_cons.mp hv with rfl | hv
          · simpa [List.getD_cons_succ] using hbv.le
          · simpa [List.getD_cons_succ] using hmax v hv
    · simp only [argmaxAux, if_neg hba]
      have ha : a ≤ bv := not_lt.mp hba
      rcases ih (idx + 1) best bv with ⟨heq, hle⟩ | ⟨j, hj, heq, hbv, hfirst, hmax⟩
      · refine Or.inl ⟨heq, fun v hv => ?_⟩
        rcases List.mem_cons.mp hv with rfl | hv
        · exact ha
        · exact hle v hv
      · refine Or.inr ⟨j + 1, by simpa using Nat.succ_lt_succ hj, by omega, ?_, ?_, ?_⟩
        · simpa [List.getD_cons_succ] using hbv
        · intro i hi
          cases i with
          | zero => simpa [List.getD_cons_succ] using lt_of_le_of_lt ha hbv
          | succ i' =>
            simpa [List.getD_cons_succ] using hfirst i' (Nat.lt_of_succ_lt_succ hi)
        · intro v hv
          rcases List.mem_cons.mp hv with rfl | hv
          · simpa [List.getD_cons_succ] using le_of_lt (lt_of_le_of_lt ha hbv)
          · simpa [List.getD_cons_succ] using hmax v hv

/-- `np.argmax` of a nonempty row is in range, attains the maximum, and
every strictly earlier entry is strictly smaller (first maximum wins). -/
lemma np_argmax_spec (row : List Nat) (h : row ≠ []) :
    np_argmax row < row.length ∧
    (∀ j < row.length, row.getD j 0 ≤ row.getD (np_argmax row) 0) ∧
    (∀ j < np_argmax row, row.getD j 0 < row.getD (np_argmax row) 0) := by
  cases row with
  | nil => exact absurd rfl h
  | cons v vs =>
    simp only [np_argmax]
    rcases argmaxAux_spec vs 1 0 v with ⟨heq, hle⟩ | ⟨j, hj, heq, hbv, hfirst, hmax⟩
    · rw [heq]
      refine ⟨by simp, ?_, ?_⟩
      · intro i hi
        cases i with
        | zero => simp
        | succ i' =>
          have hi' : i' < vs.length := by simpa using Nat.lt_of_succ_lt_succ hi
          have : vs.getD i' 0 ∈ vs := by
            rw [List.getD_eq_getElem vs 0 hi']
            exact List.getElem_mem hi'
          simpa [List.getD_cons_succ] using hle _ this
      · intro i hi; exact absurd hi (Nat.not_lt_zero i)
    · rw [heq]
      have hgd : (v :: vs).getD (1 + j) 0 = vs.getD j 0 := by
        rw [Nat.add_comm]; exact List.getD_cons_succ
      refine ⟨by simp; omega, ?_, ?_⟩
      · intro i hi
        rw [hgd]
        cases i with
        | zero => simpa using hbv.le
        | succ i' =>
          have hi' : i' < vs.length := by simpa using Nat.lt_of_succ_lt_succ hi
          have : vs.getD i' 0 ∈ vs := by
            rw [List.getD_eq_getElem vs 0 hi']
            exact List.getElem_mem hi'
          simpa [List.getD_cons_succ] using hmax _ this
      · intro i hi
        rw [hgd]
        cases i with
        | zero => simpa using hbv
        | succ i' =>
          have hi' : i' < j := by omega
          simpa [List.getD_cons_succ] using hfirst i' hi'

/-! ## Helper lemmas about `timesteps` and the generation loop -/

/-- The seed of a running maximum never exceeds the final fold value. -/
lemma le_foldl_max : ∀ (l : List Nat) (a : Nat), a ≤ l.foldl max a := by
  intro l
  induction l with
  | nil => intro a; exact le_refl a
  | cons b t ih => intro a; exact le_trans (Nat.le_max_left a b) (ih (max a b))

/-- Every list element is bounded by the fold of `max` over the list. -/
lemma mem_le_foldl_max : ∀ (l : List Nat) (a x : Nat), x ∈ l → x ≤ l.foldl max a := by
  intro l
  induction l with
  | nil => intro a x hx; exact absurd hx (List.not_mem_nil x)
  | cons b t ih =>
    intro a x hx
    rcases List.mem_cons.mp hx with rfl | hx
    · exact le_trans (Nat.le_max_right a x) (le_foldl_max t (max a x))
    · exact ih (max a b) x hx

/-- A completed run of the generation loop grows the produced text by at
most one character per loop iteration. -/
lemma genLoop_length (n : Nat) (model : List (List Nat) → List ℚ) (pick : Nat → List ℚ → Nat) :
    ∀ (fuel : Nat) (x : List (List Nat)) (word w : List Char),
      genLoop n model pick fuel x word = some w → w.length ≤ word.length + fuel := by
  intro fuel
  induction fuel with
  | zero => intro x word w h; exact absurd h (by simp [genLoop])
  | succ m ih =>
    intro x word w h
    rw [genLoop] at h
    split at h
    · rename_i rows c _ _
      by_cases hc : c = '.'
      · rw [if_pos hc] at h
        have hw : w = word ++ [c] := (Option.some_injective _ h).symm
        rw [hw]
        simp only [List.length_append, List.length_cons, List.length_nil]
        omega
      · rw [if_neg hc] at h
        have := ih _ _ w h
        simp only [List.length_append, List.length_cons, List.length_nil] at this
        omega
    · exact absurd h (by simp)

/-- Every completed run's text is nonempty and ends with the END dot. -/
lemma genLoop_last (n : Nat) (model : List (List Nat) → List ℚ) (pick : Nat → List ℚ → Nat) :
    ∀ (fuel : Nat) (x : List (List Nat)) (word w : List Char),
      genLoop n model pick fuel x word = some w →
      w ≠ [] ∧ w.getLast? = some '.' := by
  intro fuel
  induction fuel with
  | zero => intro x word w h; exact absurd h (by simp [genLoop])
  | succ m ih =>
    intro x word w h
    rw [genLoop] at h
    split at h
    · rename_i rows c _ _
      by_cases hc : c = '.'
      · rw [if_pos hc] at h
        have hw : w = word ++ [c] := (Option.some_injective _ h).symm
        subst hw
        exact ⟨by simp, by rw [hc]; exact List.getLast?_concat word⟩
      · rw [if_neg hc] at h
        exact ih _ _ w h
    · exact absurd h (by simp)

/-- A definitional unfolding of one successful loop iteration. -/
lemma genLoop_succ_some (n : Nat) (model : List (List Nat) → List ℚ)
    (pick : Nat → List ℚ → Nat) (m : Nat) (x : List (List Nat)) (word : List Char)
    (rows : List (List Nat)) (c : Char)
    (h1 : one_hot_encoding [(pick x.length (model x) : Int)] n = some rows)
    (h2 : map_int_to_char (pick x.length (model x)) = some c) :
    genLoop n model pick (m + 1) x word =
      if c = '.' then some (word ++ [c])
      else genLoop n model pick m (x ++ rows) (word ++ [c]) := by
  rw [genLoop, h1, h2]

/-- The constant-`a` model loops forever under greedy selection: `a` is
never the END dot, and the source's `while` loop has no other exit. -/
lemma modelAlwaysA_never_stops :
    ∀ (fuel : Nat) (x : List (List Nat)) (word : List Char),
      genLoop n_alpha modelAlwaysA greedy_pick fuel x word = none := by
  intro fuel
  induction fuel with
  | zero => intro x word; rfl
  | succ m ih =>
    intro x word
    have h0 : greedy_pick x.length (modelAlwaysA x) = 0 :=
      np_argmax_replicate_set (0 : ℚ) 1 zero_lt_one n_alpha 0 (by decide)
    rw [genLoop_succ_some n_alpha modelAlwaysA greedy_pick m x word
      [(List.replicate n_alpha 0).set 0 1] 'a' (by rw [h0]; decide) (by rw [h0]; decide)]
    rw [if_neg (by decide : ¬ ('a' = '.'))]
    exact ih _ _

/-! ## The claims -/

/-- Claim C1 (code_bug evaluation): for the name `"ab"` the string view
`y_male` and the one-hot view `y_male_encoded` both realise "shift left and
append END" — the one-hot target decodes to `[1, 37]` — but the integer
view `y_male_int` broadcast-adds 37 elementwise, producing `[38]` instead
of the intended `[1, 37]` (wrong length and wrong values). -/
theorem target_int_broadcast_bug :
    y_male ['a', 'b'] = ['b', '.'] ∧
    encode_word_to_int ['a', 'b'] = some [0, 1] ∧
    y_male_int_src [0, 1] = [38] ∧
    target_int_intended [0, 1] = [1, 37] ∧
    y_male_int_src [0, 1] ≠ target_int_intended [0, 1] ∧
    (y_male_int_src [0, 1]).length ≠ (['a', 'b'] : List Char).length ∧
    one_hot_decoding (y_male_encoded
      ((one_hot_encoding [(0 : Int), (1 : Int)] n_alpha).getD [])) = [1, 37] := by
  decide

/-- Claim C4 (counterexample): decoding the out-of-range index 39 does not
fail — the source silently substitutes the placeholder string `'UNK'`. -/
theorem decode_unknown_index_cex :
    decode_int_to_word [39] = ['U', 'N', 'K'] ∧ map_int_to_char 39 = none := by
  decide

/-- Claim C4 (amended): decoding an index outside `[0, V)` substitutes the
placeholder `'UNK'` (it does not fail), and decoding an in-range index
yields exactly the mapped character. -/
theorem decode_unknown_index_placeholder :
    (∀ i, n_alpha ≤ i →
      map_int_to_char i = none ∧ decode_int_to_word [i] = ['U', 'N', 'K']) ∧
    (∀ i, i < n_alpha →
      ∃ c, map_int_to_char i = some c ∧ decode_int_to_word [i] = [c]) := by
  constructor
  · intro i hi
    have hnone : map_int_to_char i = none := List.get?_eq_none.mpr hi
    exact ⟨hnone, by simp [decode_int_to_word, hnone]⟩
  · intro i hi
    have hlt : i < chars.length := hi
    refine ⟨chars.get ⟨i, hlt⟩, List.get?_eq_get hlt, ?_⟩
    simp [decode_int_to_word, map_int_to_char, List.getElem?_eq_getElem hlt]

/-- Witness for `decode_unknown_index_placeholder` at indices 50 and 5. -/
theorem decode_unknown_index_placeholder_witness :
    (map_int_to_char 50 = none ∧ decode_int_to_word [50] = ['U', 'N', 'K']) ∧
    (∃ c, map_int_to_char 5 = some c ∧ decode_int_to_word [5] = [c]) :=
  ⟨decode_unknown_index_placeholder.1 50 (by decide),
   decode_unknown_index_placeholder.2 5 (by decide)⟩

/-- Claim C5: the character/index codec round-trips — decode after encode
is the identity on alphabet symbols, encode after decode is the identity on
indices `< 39`, and the word-level functions apply the mappings pointwise,
so a word over the alphabet encodes and decodes back to itself. -/
theorem codec_round_trip :
    (∀ c ∈ chars, (map_char_to_int c).bind map_int_to_char = some c) ∧
    (∀ i, i < n_alpha → (map_int_to_char i).bind map_char_to_int = some i) ∧
    (∀ w : List Char, (∀ c ∈ w, c ∈ chars) →
      ∃ wi, encode_word_to_int w = some wi ∧ decode_int_to_word wi = w) := by
  have h1 : ∀ c ∈ chars, (map_char_to_int c).bind map_int_to_char = some c := by decide
  refine ⟨h1, by decide, ?_⟩
  intro w
  induction w with
  | nil => intro _; exact ⟨[], rfl, rfl⟩
  | cons c t ih =>
    intro hw
    obtain ⟨wi, henc, hdec⟩ := ih (fun d hd => hw d (List.mem_cons_of_mem c hd))
    have hc := h1 c (hw c (List.mem_cons_self c t))
    rcases hmc : map_char_to_int c with _ | i
    · rw [hmc] at hc
      exact absurd hc (by simp)
    · rw [hmc, Option.some_bind] at hc
      refine ⟨i :: wi, ?_, ?_⟩
      · simp only [encode_word_to_int, List.mapM_cons, hmc] at henc ⊢
        rw [henc]
        rfl
      · simp [decode_int_to_word, hc, hdec]

/-- Witness for `codec_round_trip` at the symbol `a`, index 3, word `ab`. -/
theorem codec_round_trip_witness :
    (map_char_to_int 'a').bind map_int_to_char = some 'a' ∧
    (map_int_to_char 3).bind map_char_to_int = some 3 ∧
    (∃ wi, encode_word_to_int ['a', 'b'] = some wi ∧
      decode_int_to_word wi = ['a', 'b']) :=
  ⟨codec_round_trip.1 'a' (by decide), codec_round_trip.2.1 3 (by decide),
   codec_round_trip.2.2 ['a', 'b'] (by decide)⟩

/-- Encoding a nonnegative in-range index gives the expected one-hot row. -/
lemma one_hot_row_ofNat (V k : Nat) (hk : k < V) :
    one_hot_row V (k : Int) = some ((List.replicate V 0).set k 1) := by
  unfold one_hot_row npIndex
  rw [if_pos (Int.natCast_nonneg k), if_pos (by exact_mod_cast hk)]
  simp

/-- Claim C6: one-hot encoding and decoding are mutually inverse on valid
indices (`one_hot_decoding (one_hot_encoding [k] V) = [k]` for `k < V`),
and decoding a row returns the position of its maximum value, lowest index
winning ties (the decoded position is in range, attains the maximum, and
strictly exceeds every earlier entry). -/
theorem one_hot_round_trip :
    (∀ V k : Nat, k < V →
      one_hot_encoding [(k : Int)] V = some [(List.replicate V 0).set k 1] ∧
      one_hot_decoding [(List.replicate V 0).set k 1] = [k]) ∧
    (∀ row : List Nat, row ≠ [] →
      np_argmax row < row.length ∧
      (∀ j, j < row.length → row.getD j 0 ≤ row.getD (np_argmax row) 0) ∧
      (∀ j, j < np_argmax row → row.getD j 0 < row.getD (np_argmax row) 0)) := by
  constructor
  · intro V k hk
    constructor
    · simp only [one_hot_encoding, List.mapM_cons, List.mapM_nil,
        one_hot_row_ofNat V k hk]
      rfl
    · simp only [one_hot_decoding, List.map_cons, List.map_nil]
      rw [np_argmax_replicate_set 0 1 Nat.zero_lt_one V k hk]
  · intro row h
    exact np_argmax_spec row h

/-- Witness for `one_hot_round_trip` at `V = 39`, `k = 5`, and at the row
`[0, 2, 2]` (whose first maximum sits at position 1). -/
theorem one_hot_round_trip_witness :
    (one_hot_encoding [((5 : Nat) : Int)] 39 = some [(List.replicate 39 0).set 5 1] ∧
      one_hot_decoding [(List.replicate 39 0).set 5 1] = [5]) ∧
    (np_argmax ([0, 2, 2] : List Nat) < ([0, 2, 2] : List Nat).length ∧
      (∀ j, j < ([0, 2, 2] : List Nat).length →
        ([0, 2, 2] : List Nat).getD j 0 ≤
          ([0, 2, 2] : List Nat).getD (np_argmax ([0, 2, 2] : List Nat)) 0) ∧
      (∀ j, j < np_argmax ([0, 2, 2] : List Nat) →
        ([0, 2, 2] : List Nat).getD j 0 <
          ([0, 2, 2] : List Nat).getD (np_argmax ([0, 2, 2] : List Nat)) 0)) :=
  ⟨one_hot_round_trip.1 39 5 (by decide), one_hot_round_trip.2 [0, 2, 2] (by decide)⟩

/-- Claim C9: at the decoding interface a padding row is indistinguishable
from the symbol at index 0 — an all-zero row decodes to index 0, exactly as
the genuine one-hot row of index 0 does, and index 0 is the letter `a`. -/
theorem padding_row_decodes_like_a :
    one_hot_decoding [List.replicate n_alpha 0] = [0] ∧
    one_hot_encoding [((0 : Nat) : Int)] n_alpha =
      some [(List.replicate n_alpha 0).set 0 1] ∧
    one_hot_decoding [(List.replicate n_alpha 0).set 0 1] = [0] ∧
    map_int_to_char 0 = some 'a' := by
  decide

/-- Claim C10 (counterexample): an index below `-width` also makes the
construction fail — `one_hot_encoding([-40], 39)` raises although `-40` is
not `≥ 39`, so "only an index ≥ width fails" is false. -/
theorem one_hot_negative_index_cex :
    one_hot_encoding [(-40 : Int)] 39 = none ∧ ¬ ((39 : Int) ≤ -40) := by
  decide

/-- Claim C10 (amended): for `-width ≤ i < 0` the construction succeeds,
placing the single 1 at column `width + i` (numpy wrap-around); it fails
exactly for `i ≥ width` or `i < -width`. -/
theorem one_hot_negative_index_wrap :
    (∀ (w : Nat) (i : Int), -(w : Int) ≤ i → i < 0 →
      one_hot_encoding [i] w =
        some [(List.replicate w 0).set ((w : Int) + i).toNat 1]) ∧
    (∀ (w : Nat) (i : Int), (w : Int) ≤ i ∨ i < -(w : Int) →
      one_hot_encoding [i] w = none) := by
  constructor
  · intro w i h1 h2
    have hidx : npIndex w i = some ((w : Int) + i).toNat := by
      unfold npIndex
      rw [if_neg (not_le.mpr h2), if_pos h1]
    have hrow : one_hot_row w i =
        some ((List.replicate w 0).set ((w : Int) + i).toNat 1) := by
      unfold one_hot_row
      rw [hidx]
      rfl
    simp only [one_hot_encoding, List.mapM_cons, List.mapM_nil, hrow]
    rfl
  · intro w i h
    have hidx : npIndex w i = none := by
      unfold npIndex
      rcases h with h | h
      · rw [if_pos (le_trans (Int.natCast_nonneg w) h), if_neg (not_lt.mpr h)]
      · have hneg : ¬ (0 ≤ i) := by omega
        rw [if_neg hneg, if_neg (not_le.mpr h)]
    have hrow : one_hot_row w i = none := by
      unfold one_hot_row
      rw [hidx]
      rfl
    simp only [one_hot_encoding, List.mapM_cons, hrow]
    rfl

/-- Witness for `one_hot_negative_index_wrap` at `i = -1` (succeeds, 1 in
the last column) and `i = 50` (fails), both with `width = 39`. -/
theorem one_hot_negative_index_wrap_witness :
    one_hot_encoding [(-1 : Int)] 39 =
      some [(List.replicate 39 0).set (((39 : Int) + -1).toNat) 1] ∧
    one_hot_encoding [(50 : Int)] 39 = none :=
  ⟨one_hot_negative_index_wrap.1 39 (-1) (by decide) (by decide),
   one_hot_negative_index_wrap.2 39 50 (Or.inl (by decide))⟩

/-- Claim C2 (counterexample): the source's generation loop has no
maximum-length bound, so a model that never selects END (here the
constant-`a` model under greedy selection) makes the run fail to terminate
at every fuel bound. -/
theorem generation_unbounded_cex : neverTerminates modelAlwaysA greedy_pick :=
  modelAlwaysA_never_stops

/-- Claim C2 (amended): the loop stops only when the chosen symbol is END —
there is no configured maximum-length bound in the code — so termination is
not guaranteed for every parameter setting (some model loops forever), but
any run that does complete yields a finite string growing by at most one
character per iteration. -/
theorem generation_terminates_only_on_end :
    (∀ (model : List (List Nat) → List ℚ) (pick : Nat → List ℚ → Nat)
      (fuel : Nat) (x : List (List Nat)) (word w : List Char),
      genLoop n_alpha model pick fuel x word = some w →
      w.length ≤ word.length + fuel) ∧
    (∃ model, neverTerminates model greedy_pick) :=
  ⟨fun model pick fuel x word w h => genLoop_length n_alpha model pick fuel x word w h,
   ⟨modelAlwaysA, modelAlwaysA_never_stops⟩⟩

/-- Witness for `generation_terminates_only_on_end` on the constant-END
model: the completed one-step run `"."` has length at most `0 + 1`. -/
theorem generation_terminates_only_on_end_witness :
    (['.'] : List Char).length ≤ ([] : List Char).length + 1 :=
  generation_terminates_only_on_end.1 modelAlwaysDot greedy_pick 1 x0 [] ['.'] (by decide)

/-- Claim C3 (counterexample): with the constant-END model the greedy run
returns `"."` — the END dot is part of the output string, not excluded, so
the claimed output (the empty string) is wrong. -/
theorem generated_string_keeps_end_cex :
    gen_greedy modelAlwaysDot 1 x0 [] = some ['.'] ∧
    some (['.'] : List Char) ≠ some ([] : List Char) := by
  decide

/-- Claim C3 (amended): every completed generation run (either variant)
returns a nonempty string that *includes* the trailing END marker — the
dot whose selection ends the loop is appended to the output before the
loop test. -/
theorem generated_string_keeps_end :
    ∀ (model : List (List Nat) → List ℚ) (pick : Nat → List ℚ → Nat)
      (fuel : Nat) (x : List (List Nat)) (word w : List Char),
      genLoop n_alpha model pick fuel x word = some w →
      w ≠ [] ∧ w.getLast? = some '.' :=
  fun model pick fuel x word w h => genLoop_last n_alpha model pick fuel x word w h

/-- Witness for `generated_string_keeps_end` on the constant-END model. -/
theorem generated_string_keeps_end_witness :
    (['.'] : List Char) ≠ [] ∧ (['.'] : List Char).getLast? = some '.' :=
  generated_string_keeps_end modelAlwaysDot greedy_pick 1 x0 [] ['.'] (by decide)

/-- Claim C7: generation is deterministic in its inputs — two greedy runs
with the same model parameters and the same accumulated input state produce
the same output, and two stochastic runs driven by the same fixed random
source do as well. -/
theorem generation_deterministic :
    ∀ (model : List (List Nat) → List ℚ) (fuel : Nat) (x : List (List Nat))
      (word : List Char),
      (∀ r₁ r₂, r₁ = gen_greedy model fuel x word →
        r₂ = gen_greedy model fuel x word → r₁ = r₂) ∧
      (∀ (rand : Nat → List ℚ → Nat) r₁ r₂,
        r₁ = gen_stochastic model rand fuel x word →
        r₂ = gen_stochastic model rand fuel x word → r₁ = r₂) :=
  fun _ _ _ _ =>
    ⟨fun _ _ h1 h2 => h1.trans h2.symm, fun _ _ _ h1 h2 => h1.trans h2.symm⟩

/-- Witness for `generation_deterministic`: two greedy runs of the
constant-END model both return `"."`. -/
theorem generation_deterministic_witness :
    some (['.'] : List Char) = some (['.'] : List Char) :=
  (generation_deterministic modelAlwaysDot 1 x0 []).1 (some ['.']) (some ['.'])
    (by decide) (by decide)

/-- Claim C8: with `T = timesteps corpus` the maximum name length, every
name's tensors fit (`len ≤ T`, so post-truncation never cuts anything), and
padding any length-`len(name)` tensor (the input or the target one-hot
tensor of that name) appends exactly `T - len` all-zero rows after the
original rows, yielding `T` rows total. -/
theorem padded_batch_preserves_rows :
    ∀ (corpus : List (List Char)) (name : List Char), name ∈ corpus →
      name.length ≤ timesteps corpus ∧
      ∀ (e : List (List Nat)) (V : Nat), e.length = name.length →
        pad_post e (timesteps corpus) V =
          e ++ List.replicate (timesteps corpus - e.length) (List.replicate V 0) ∧
        (pad_post e (timesteps corpus) V).length = timesteps corpus := by
  intro corpus name hmem
  have hlen : name.length ≤ timesteps corpus :=
    mem_le_foldl_max (corpus.map List.length) 0 name.length
      (List.mem_map_of_mem List.length hmem)
  refine ⟨hlen, ?_⟩
  intro e V he
  have he' : e.length ≤ timesteps corpus := he ▸ hlen
  constructor
  · unfold pad_post
    rw [List.take_of_length_le he']
  · unfold pad_post
    rw [List.length_append, List.length_take, List.length_replicate]
    omega

/-- Witness for `padded_batch_preserves_rows` on the corpus
`["ab", "a"]` (`T = 2`) and a length-2 tensor of width 1. -/
theorem padded_batch_preserves_rows_witness :
    (['a', 'b'] : List Char).length ≤ timesteps [['a', 'b'], ['a']] ∧
    (pad_post [[1], [0]] (timesteps [['a', 'b'], ['a']]) 1 =
        [[1], [0]] ++ List.replicate
          (timesteps [['a', 'b'], ['a']] - ([[1], [0]] : List (List Nat)).length)
          (List.replicate 1 0) ∧
      (pad_post [[1], [0]] (timesteps [['a', 'b'], ['a']]) 1).length =
        timesteps [['a', 'b'], ['a']]) :=
  ⟨(padded_batch_preserves_rows [['a', 'b'], ['a']] ['a', 'b'] (by decide)).1,
   (padded_batch_preserves_rows [['a', 'b'], ['a']] ['a', 'b'] (by decide)).2
     [[1], [0]] 1 (by decide)⟩

end NameGen
